import Mathlib

/-!
# Verification of the geostat covariance/kriging core

A shallow embedding, in Lean 4, of the parts of `geostat` that the frozen
claims are about: the kernel combinators of `src/geostat/kernel.py`
(`Noise`, `SquaredExponential`, `GammaExponential`, `Stack`, `Product`,
`Mux`, `safepow`) and the model/inference layer of `src/geostat/model.py`
(`check_parameters`, `Model.fit`, `Model.mcmc`, `Model.predict` with its
`interpolate` / `interpolate_batch` helpers).

Modelling conventions:
* float32/float64 scalars are modelled as `ℚ` (exact field arithmetic);
* the numeric runtime's transcendental primitives (`tf.exp`, `tf.pow`,
  `tf.math.log`) are abstracted as an explicit `Prims` record, and
  `tf.linalg.inv` as an explicit function argument, since their
  floating-point behaviour is external to the repository;
* the operator-graph evaluation machinery (`op.py`, absent from the
  source tree; only its callers are present) is modelled from the spec,
  §4.1: node evaluation is memoized but pure, so evaluating a node is
  modelled as a pure function of the cache contents (`offset`, `locs1`,
  `locs2`, `cats1`, `cats2`) that `gp_covariance2` and `Mux.call` put in
  the cache, with the distance intermediates derived on demand.
-/

namespace Geostat

/-- Abstract numeric primitives of the underlying runtime
(`tf.exp`, `tf.pow`, `tf.math.log`), kept opaque to the embedding. -/
structure Prims where
  fexp : ℚ → ℚ
  fpow : ℚ → ℚ → ℚ
  flog : ℚ → ℚ

/-- A location: one row of rational coordinates. -/
abbrev Loc := List ℚ

/-- The contents of the per-evaluation cache assembled by
`gp_covariance2` (model.py) or by `Mux.call` (kernel.py): the integer
`offset`, the two location batches and the two category-label vectors.
`Mux.call` builds sub-caches with no category entries; those are
represented by empty lists. -/
structure Env where
  offset : ℤ
  locs1 : List Loc
  locs2 : List Loc
  cats1 : List ℕ
  cats2 : List ℕ

/-- `PerAxisDist2` (metric.py): per-axis squared differences of two
locations, `square(ed(x1,1) - ed(x2,0))` at one index pair. -/
def paDist2 (a b : Loc) : List ℚ :=
  (a.zip b).map fun t => (t.1 - t.2) ^ 2

/-- `Euclidean` (metric.py), unscaled case: sum of the per-axis squared
differences, `tf.reduce_sum(e['pa_d2'], axis=-1)` at one index pair. -/
def eucl (a b : Loc) : ℚ := (paDist2 a b).sum

/-- The i-th location of a batch (junk `[]` out of range; the claims only
quantify over in-range indices). -/
def locAt (ls : List Loc) (i : ℕ) : Loc := ls.getD i []

/-- `tf.split(xs, counts)`: cut a list into consecutive segments of the
given lengths. -/
def splitByCounts : List ℕ → List α → List (List α)
  | [], _ => []
  | c :: cs, xs => xs.take c :: splitByCounts cs (xs.drop c)

/-- `tf.math.cumsum(counts, exclusive=True)`. -/
def exclCumsum : List ℕ → List ℕ
  | [] => []
  | c :: cs => 0 :: (exclCumsum cs).map (· + c)

/-- Dense block-diagonal matrix, `LinearOperatorBlockDiag(...).to_dense()`
(kernel.py, `block_diag`): blocks are laid out along the diagonal, with
zeros everywhere two indices fall in different blocks.  Each list entry is
`(block, rows, cols)`. -/
def blockDiag : List ((ℕ → ℕ → ℚ) × ℕ × ℕ) → ℕ → ℕ → ℚ
  | [], _, _ => 0
  | (B, r, c) :: rest, i, j =>
    if i < r then (if j < c then B i j else 0)
    else if j < c then 0
    else blockDiag rest (i - r) (j - c)

/-- The kernel-node language of kernel.py that the claims quantify over:
primitives `Noise`, `SquaredExponential`, `GammaExponential` and the
combinators `Stack`, `Product`, `Mux`.  Parameters are referenced by
name, as in the source's formal-argument dictionaries. -/
inductive Kern where
  | noise (nugget : String)
  | sqexp (sill rng : String)
  | gammaexp (sill rng gam : String)
  | stack (parts : List Kern)
  | product (parts : List Kern)
  | mux (parts : List Kern)

/-- Evaluation of a kernel node against a cache (`Kernel.call` composed
with the `Op.run` resolution of autoinputs, modelled from spec §4.1:
memoization is pure, so a node's value is a function of the cache
contents).  The result is the covariance matrix as a total function of the
two indices; entries beyond the batch sizes are junk.

* `noise` — `Noise.call`: `tf.where(indices1[:,None] == indices2 + offset,
  nugget, 0)`, i.e. `nugget` exactly on the offset diagonal;
* `sqexp` — `SquaredExponential.call`: `sill * exp(-0.5*d2/range**2)`;
* `gammaexp` — `GammaExponential.call` with `gamma_exp` and `safepow`:
  `sill * exp(-(max(d2/range**2, 0))**(gamma/2))`;
* `stack`/`product` — `Stack.call`/`Product.call`: both are
  `tf.reduce_sum(e['parts'], axis=0)`;
* `mux` — `Mux.call`: bincount the categories, cut both location batches
  into per-category segments, evaluate each sub-kernel on its own
  sub-cache (offset shifted by the difference of the segment start
  indices, no category entries), and assemble the results with
  `block_diag`. -/
def evalK (pr : Prims) (p : String → ℚ) : Kern → Env → ℕ → ℕ → ℚ
  | .noise ng, e => fun i j =>
    if (i : ℤ) = (j : ℤ) + e.offset then p ng else 0
  | .sqexp sill rng, e => fun i j =>
    p sill * pr.fexp (-(1/2) * eucl (locAt e.locs1 i) (locAt e.locs2 j) / (p rng) ^ 2)
  | .gammaexp sill rng gam, e => fun i j =>
    p sill * pr.fexp (-(pr.fpow (max (eucl (locAt e.locs1 i) (locAt e.locs2 j) / (p rng) ^ 2) 0)
      ((1/2) * p gam)))
  | .stack parts, e => fun i j =>
    ((List.finRange parts.length).map fun c => evalK pr p (parts.get c) e i j).sum
  | .product parts, e => fun i j =>
    ((List.finRange parts.length).map fun c => evalK pr p (parts.get c) e i j).sum
  | .mux parts, e =>
    let n := parts.length
    let counts1 := (List.range n).map fun c => e.cats1.count c
    let counts2 := (List.range n).map fun c => e.cats2.count c
    let starts1 := exclCumsum counts1
    let starts2 := exclCumsum counts2
    let segs1 := splitByCounts counts1 e.locs1
    let segs2 := splitByCounts counts2 e.locs2
    let blocks := (List.finRange n).map fun c =>
      (evalK pr p (parts.get c)
        { offset := e.offset + ((starts2.getD c 0 : ℤ) - (starts1.getD c 0 : ℤ))
          locs1 := segs1.getD c []
          locs2 := segs2.getD c []
          cats1 := []
          cats2 := [] },
       counts1.getD c 0, counts2.getD c 0)
    blockDiag blocks
termination_by k _ => sizeOf k
decreasing_by
  all_goals
    simp only [Kern.mux.sizeOf_spec, Kern.stack.sizeOf_spec, Kern.product.sizeOf_spec]
    have h := List.sizeOf_lt_of_mem (parts.get_mem c.1 c.2)
    simp only [Fin.eta] at h
    omega

/-- `safepow` forward value (kernel.py): `tf.pow(x, a)` on scalars. -/
def safepow (pr : Prims) (x a : ℚ) : ℚ := pr.fpow x a

/-- Elementwise base-derivative of `safepow` before unbroadcasting
(kernel.py, `safepow`'s `grad`):
`tf.where(x <= 0.0, tf.zeros_like(x), dy * tf.pow(x, a-1))`. -/
def safepowGradX (pr : Prims) (x a dy : ℚ) : ℚ :=
  if x ≤ 0 then 0 else dy * pr.fpow x (a - 1)

/-- Elementwise exponent-derivative of `safepow` before unbroadcasting
(kernel.py, `safepow`'s `grad`):
`tf.where(x <= 0.0, tf.zeros_like(a), dy * y * tf.math.log(x))` with
`y = tf.pow(x, a)`. -/
def safepowGradA (pr : Prims) (x a dy : ℚ) : ℚ :=
  if x ≤ 0 then 0 else dy * pr.fpow x a * pr.flog x

/-- `unbroadcast(x, shape)` (kernel.py) for a rank-2 gradient and a rank-2
target shape `[m, n]` (the base's own shape): the excess rank is 0, and the
remaining step sums with `keepdims=True` over exactly the axes where the
target shape is 1. -/
def unbroadcastMat (m n : ℕ) (g : ℕ → ℕ → ℚ) : ℕ → ℕ → ℚ :=
  let g1 : ℕ → ℕ → ℚ :=
    if m = 1 then fun _ j => ∑ i ∈ Finset.range m, g i j else g
  if n = 1 then fun i _ => ∑ j ∈ Finset.range n, g1 i j else g1

/-- `unbroadcast(x, shape)` (kernel.py) for a rank-2 gradient and a rank-0
(scalar) target: the excess rank is 2, so the gradient is summed over both
leading axes. -/
def unbroadcastScalar (m n : ℕ) (g : ℕ → ℕ → ℚ) : ℚ :=
  ∑ i ∈ Finset.range m, ∑ j ∈ Finset.range n, g i j

/-- The custom gradient registered for `safepow` (kernel.py,
`@tf.custom_gradient`), at the instantiation `gamma_exp` uses it with: a
rank-2 base `x : [m, n]` and a rank-0 exponent `a`, with incoming
cotangent `dy : [m, n]`.  Both elementwise derivatives are unbroadcast
back to their argument's shape. -/
def safepowGrad (pr : Prims) (m n : ℕ) (x : ℕ → ℕ → ℚ) (a : ℚ)
    (dy : ℕ → ℕ → ℚ) : (ℕ → ℕ → ℚ) × ℚ :=
  (unbroadcastMat m n fun i j => safepowGradX pr (x i j) a (dy i j),
   unbroadcastScalar m n fun i j => safepowGradA pr (x i j) a (dy i j))

/-! ## Helper lemmas about the block bookkeeping -/

lemma exclCumsum_length (l : List ℕ) : (exclCumsum l).length = l.length := by
  induction l with
  | nil => rfl
  | cons c cs ih => simp [exclCumsum, ih]

lemma exclCumsum_getD (l : List ℕ) (c : ℕ) (hc : c < l.length) :
    (exclCumsum l).getD c 0 = (l.take c).sum := by
  induction l generalizing c with
  | nil => simp at hc
  | cons x xs ih =>
    cases c with
    | zero => simp [exclCumsum]
    | succ c =>
      simp only [List.length_cons, Nat.succ_lt_succ_iff] at hc
      have hlen : c < ((exclCumsum xs).map (· + x)).length := by
        simp [exclCumsum_length, hc]
      simp only [exclCumsum, List.getD_cons_succ]
      rw [List.getD_eq_get _ _ hlen, List.get_map,
        ← List.getD_eq_get _ 0 (by simpa [exclCumsum_length] using hc), ih c hc]
      simp [Nat.add_comm]

lemma splitByCounts_getD (counts : List ℕ) (l : List α) (c : ℕ)
    (hc : c < counts.length) :
    (splitByCounts counts l).getD c [] =
      (l.drop ((counts.take c).sum)).take (counts.getD c 0) := by
  induction counts generalizing c l with
  | nil => simp at hc
  | cons x xs ih =>
    cases c with
    | zero => simp [splitByCounts]
    | succ c =>
      simp only [List.length_cons, Nat.succ_lt_succ_iff] at hc
      simp only [splitByCounts, List.getD_cons_succ]
      rw [ih _ c hc]
      simp [List.drop_drop, Nat.add_comm]

lemma countP_lt_succ (l : List ℕ) (c : ℕ) :
    l.countP (fun x => decide (x < c + 1))
      = l.countP (fun x => decide (x < c)) + l.count c := by
  induction l with
  | nil => simp
  | cons x xs ih =>
    simp only [List.countP_cons, List.count_cons, ih]
    rcases Nat.lt_trichotomy x c with h | h | h
    · simp [h, Nat.lt_succ_of_lt h, Nat.ne_of_lt h]
      omega
    · subst h
      simp
      omega
    · have h1 : ¬ x < c := by omega
      have h2 : ¬ x < c + 1 := by omega
      simp [h1, h2, (Nat.ne_of_gt h)]

lemma sum_count_range (l : List ℕ) (c : ℕ) :
    (((List.range c).map fun v => l.count v)).sum
      = l.countP (fun x => decide (x < c)) := by
  induction c with
  | zero =>
    simp only [List.range_zero, List.map_nil, List.sum_nil]
    rw [eq_comm, List.countP_eq_zero]
    intro a _
    simp
  | succ c ih =>
    rw [List.range_succ, List.map_append, List.sum_append, countP_lt_succ, ih]
    simp

lemma sorted_get_iff (l : List ℕ) (hs : l.Sorted (· ≤ ·)) (c i : ℕ)
    (hi : i < l.length) :
    l.get ⟨i, hi⟩ = c ↔
      (l.countP (fun x => decide (x < c)) ≤ i
        ∧ i < l.countP (fun x => decide (x < c)) + l.count c) := by
  induction l generalizing i with
  | nil => simp at hi
  | cons x xs ih =>
    obtain ⟨hx, hxs⟩ := List.sorted_cons.mp hs
    cases i with
    | zero =>
      simp only [List.get, List.countP_cons, List.count_cons]
      constructor
      · intro hxc
        subst hxc
        have hzero : xs.countP (fun y => decide (y < x)) = 0 := by
          rw [List.countP_eq_zero]
          intro a ha
          have := hx a ha
          simp
          omega
        simp [hzero]
      · intro hh
        obtain ⟨h1, h2⟩ := hh
        by_cases hxc : x = c
        · exact hxc
        · exfalso
          have hcx : ¬ x < c := by
            intro hlt
            simp [hlt] at h1
          have hccx : ¬ c = x := fun h => hxc h.symm
          have hdx : ¬ (decide (x < c) = true) := by simpa using hcx
          rw [if_neg hdx] at h1 h2
          have hbx : ¬ ((x == c) = true) := by simpa using hxc
          rw [if_neg hbx] at h2
          have hpos : 0 < xs.count c := by omega
          have := hx c (List.count_pos_iff.mp hpos)
          exact hcx (by omega)
    | succ i =>
      simp only [List.length_cons, Nat.succ_lt_succ_iff] at hi
      have hget : (x :: xs).get ⟨i + 1, by simpa using Nat.succ_lt_succ hi⟩
          = xs.get ⟨i, hi⟩ := rfl
      rw [hget, ih hxs i hi]
      simp only [List.countP_cons, List.count_cons]
      rcases Nat.lt_trichotomy x c with h | h | h
      · have : ¬ x = c := Nat.ne_of_lt h
        simp [h, this]
        omega
      · subst h
        have hzero : xs.countP (fun y => decide (y < x)) = 0 := by
          rw [List.countP_eq_zero]
          intro a ha
          have := hx a ha
          simp
          omega
        simp [hzero]
      · have h1 : ¬ x < c := by omega
        have h2 : ¬ x = c := Nat.ne_of_gt h
        have hzero : xs.countP (fun y => decide (y < c)) = 0 := by
          rw [List.countP_eq_zero]
          intro a ha
          have := hx a ha
          simp
          omega
        have hzero2 : xs.count c = 0 := by
          rw [List.count_eq_zero]
          intro hmem
          have := hx c hmem
          omega
        simp [h1, h2, hzero, hzero2]

lemma blockDiag_apply_block (blocks : List ((ℕ → ℕ → ℚ) × ℕ × ℕ)) (k : ℕ)
    (hk : k < blocks.length) (a b : ℕ)
    (ha : a < (blocks.get ⟨k, hk⟩).2.1) (hb : b < (blocks.get ⟨k, hk⟩).2.2) :
    blockDiag blocks ((((blocks.map fun t => t.2.1).take k).sum) + a)
      ((((blocks.map fun t => t.2.2).take k).sum) + b)
      = (blocks.get ⟨k, hk⟩).1 a b := by
  induction blocks generalizing k with
  | nil => simp at hk
  | cons hd tl ih =>
    obtain ⟨B, r, cc⟩ := hd
    cases k with
    | zero =>
      simp only [List.get] at ha hb ⊢
      simp only [List.take_zero, List.sum_nil, Nat.zero_add]
      simp only [blockDiag]
      rw [if_pos ha, if_pos hb]
    | succ k =>
      simp only [List.length_cons, Nat.succ_lt_succ_iff] at hk
      simp only [List.get] at ha hb ⊢
      simp only [List.map_cons, List.take_succ_cons, List.sum_cons]
      simp only [blockDiag]
      rw [if_neg (by omega), if_neg (by omega)]
      have e1 : r + ((tl.map fun t => t.2.1).take k).sum + a - r
          = ((tl.map fun t => t.2.1).take k).sum + a := by omega
      have e2 : cc + ((tl.map fun t => t.2.2).take k).sum + b - cc
          = ((tl.map fun t => t.2.2).take k).sum + b := by omega
      rw [e1, e2]
      exact ih k hk ha hb

lemma blockDiag_offblock (blocks : List ((ℕ → ℕ → ℚ) × ℕ × ℕ)) (k k' : ℕ)
    (hk : k < blocks.length) (hk' : k' < blocks.length) (hne : k ≠ k') (a b : ℕ)
    (ha : a < (blocks.get ⟨k, hk⟩).2.1) (hb : b < (blocks.get ⟨k', hk'⟩).2.2) :
    blockDiag blocks ((((blocks.map fun t => t.2.1).take k).sum) + a)
      ((((blocks.map fun t => t.2.2).take k').sum) + b) = 0 := by
  induction blocks generalizing k k' with
  | nil => simp at hk
  | cons hd tl ih =>
    obtain ⟨B, r, cc⟩ := hd
    cases k with
    | zero =>
      cases k' with
      | zero => exact absurd rfl hne
      | succ k' =>
        simp only [List.get] at ha hb
        simp only [List.map_cons, List.take_zero, List.take_succ_cons,
          List.sum_nil, List.sum_cons, Nat.zero_add]
        simp only [blockDiag]
        rw [if_pos ha, if_neg (by omega)]
    | succ k =>
      cases k' with
      | zero =>
        simp only [List.get] at ha hb
        simp only [List.map_cons, List.take_zero, List.take_succ_cons,
          List.sum_nil, List.sum_cons, Nat.zero_add]
        simp only [blockDiag]
        rw [if_neg (by omega), if_pos hb]
      | succ k' =>
        simp only [List.length_cons, Nat.succ_lt_succ_iff] at hk hk'
        simp only [List.get] at ha hb
        simp only [List.map_cons, List.take_succ_cons, List.sum_cons]
        simp only [blockDiag]
        rw [if_neg (by omega), if_neg (by omega)]
        have e1 : r + ((tl.map fun t => t.2.1).take k).sum + a - r
            = ((tl.map fun t => t.2.1).take k).sum + a := by omega
        have e2 : cc + ((tl.map fun t => t.2.2).take k').sum + b - cc
            = ((tl.map fun t => t.2.2).take k').sum + b := by omega
        rw [e1, e2]
        exact ih k k' hk hk' (by omega) ha hb

lemma getD_range_map (h : ℕ → α) (N c : ℕ) (hc : c < N) (d : α) :
    (((List.range N).map h).getD c d) = h c := by
  rw [List.getD_eq_getElem _ d (by simpa using hc)]
  simp [hc]

lemma counts_take_sum (l : List ℕ) (N c : ℕ) (hc : c ≤ N) :
    ((((List.range N).map fun v => l.count v).take c).sum)
      = l.countP (fun x => decide (x < c)) := by
  rw [← List.map_take, List.take_range, Nat.min_eq_left hc, sum_count_range]

lemma finRange_map_comp_val (N : ℕ) (h : ℕ → α) :
    (List.finRange N).map (fun c : Fin N => h (c : ℕ)) = (List.range N).map h := by
  apply List.ext_getElem
  · simp
  · intro i h1 h2
    simp

/-- The sub-cache that `Mux.call` hands to the sub-kernel of category `c`,
in canonical form: the offset is shifted by the difference of the two
within-block start indices (number of entries of smaller category), the
location batches are the consecutive segments belonging to category `c`,
and no category entries are present. -/
def muxSubEnv (e : Env) (c : ℕ) : Env :=
  { offset := e.offset
      + ((e.cats2.countP (fun x => decide (x < c)) : ℤ)
        - (e.cats1.countP (fun x => decide (x < c)) : ℤ))
    locs1 := (e.locs1.drop (e.cats1.countP (fun x => decide (x < c)))).take
        (e.cats1.count c)
    locs2 := (e.locs2.drop (e.cats2.countP (fun x => decide (x < c)))).take
        (e.cats2.count c)
    cats1 := []
    cats2 := [] }

/-- The per-category block list that `Mux.call` feeds to `block_diag`, in
canonical form. -/
def muxBlocks (pr : Prims) (p : String → ℚ) (parts : List Kern) (e : Env) :
    List ((ℕ → ℕ → ℚ) × ℕ × ℕ) :=
  (List.finRange parts.length).map fun c =>
    (evalK pr p (parts.get c) (muxSubEnv e (c : ℕ)),
     e.cats1.count (c : ℕ), e.cats2.count (c : ℕ))

/-- `Mux.call` in canonical form: the `bincount`/`cumsum`/`split`
bookkeeping of the source, re-expressed through `count`, `countP (< c)`
and `drop`/`take` of the category-segment boundaries. -/
lemma evalK_mux (pr : Prims) (p : String → ℚ) (parts : List Kern) (e : Env) :
    evalK pr p (.mux parts) e = blockDiag (muxBlocks pr p parts e) := by
  unfold muxBlocks muxSubEnv
  simp only [evalK]
  refine congrArg blockDiag (List.map_congr_left ?_)
  intro c _
  have hc : (c : ℕ) < parts.length := c.2
  have hlen1 : (c : ℕ) < ((List.range parts.length).map fun v => e.cats1.count v).length := by
    simpa using hc
  have hlen2 : (c : ℕ) < ((List.range parts.length).map fun v => e.cats2.count v).length := by
    simpa using hc
  rw [exclCumsum_getD _ _ hlen1, exclCumsum_getD _ _ hlen2,
    splitByCounts_getD _ _ _ hlen1, splitByCounts_getD _ _ _ hlen2,
    counts_take_sum _ _ _ hc.le, counts_take_sum _ _ _ hc.le,
    getD_range_map _ _ _ hc, getD_range_map _ _ _ hc]

lemma muxBlocks_length (pr : Prims) (p : String → ℚ) (parts : List Kern) (e : Env) :
    (muxBlocks pr p parts e).length = parts.length := by
  simp [muxBlocks]

lemma muxBlocks_get (pr : Prims) (p : String → ℚ) (parts : List Kern) (e : Env)
    (c : ℕ) (hc : c < parts.length) (hcb : c < (muxBlocks pr p parts e).length) :
    (muxBlocks pr p parts e).get ⟨c, hcb⟩
      = (evalK pr p (parts.get ⟨c, hc⟩) (muxSubEnv e c),
         e.cats1.count c, e.cats2.count c) := by
  simp [muxBlocks, List.get_eq_getElem]

lemma muxBlocks_rowStart (pr : Prims) (p : String → ℚ) (parts : List Kern) (e : Env)
    (c : ℕ) (hc : c ≤ parts.length) :
    ((((muxBlocks pr p parts e).map fun t => t.2.1).take c).sum)
      = e.cats1.countP (fun x => decide (x < c)) := by
  unfold muxBlocks
  rw [List.map_map]
  rw [show ((fun t : (ℕ → ℕ → ℚ) × ℕ × ℕ => t.2.1) ∘ fun c : Fin parts.length =>
        (evalK pr p (parts.get c) (muxSubEnv e (c : ℕ)),
         e.cats1.count (c : ℕ), e.cats2.count (c : ℕ)))
      = (fun c : Fin parts.length => e.cats1.count (c : ℕ)) from rfl]
  rw [finRange_map_comp_val parts.length fun v => e.cats1.count v,
    counts_take_sum _ _ _ hc]

lemma muxBlocks_colStart (pr : Prims) (p : String → ℚ) (parts : List Kern) (e : Env)
    (c : ℕ) (hc : c ≤ parts.length) :
    ((((muxBlocks pr p parts e).map fun t => t.2.2).take c).sum)
      = e.cats2.countP (fun x => decide (x < c)) := by
  unfold muxBlocks
  rw [List.map_map]
  rw [show ((fun t : (ℕ → ℕ → ℚ) × ℕ × ℕ => t.2.2) ∘ fun c : Fin parts.length =>
        (evalK pr p (parts.get c) (muxSubEnv e (c : ℕ)),
         e.cats1.count (c : ℕ), e.cats2.count (c : ℕ)))
      = (fun c : Fin parts.length => e.cats2.count (c : ℕ)) from rfl]
  rw [finRange_map_comp_val parts.length fun v => e.cats2.count v,
    counts_take_sum _ _ _ hc]

/-! ## Parameter checking (model.py, `check_parameters`) -/

/-- `PaperParameter` (param.py is absent from the source tree; modelled
from the spec: "Parameter: {name: string, lower: float, upper: float}").
`check_parameters` in model.py reads the fields `name`, `lo`, `hi`. -/
structure PaperParameter where
  name : String
  lo : ℚ
  hi : ℚ

/-- `Bound` (param.py, absent; modelled from the spec: an effective
`[lower, upper]` bound recorded per parameter name). -/
structure Bound where
  lo : ℚ
  hi : ℚ
  deriving DecidableEq

/-- `np.max` over a nonempty list (`check_parameters`' `np.max([pp.lo ...])`).
The `[]` case is unreachable there. -/
def listMax : List ℚ → ℚ
  | [] => 0
  | [x] => x
  | x :: y :: xs => max x (listMax (y :: xs))

/-- `np.min` over a nonempty list (`check_parameters`' `np.min([pp.hi ...])`). -/
def listMin : List ℚ → ℚ
  | [] => 0
  | [x] => x
  | x :: y :: xs => min x (listMin (y :: xs))

/-- The references that share a parameter name
(`d[pp.name].append(pp)` grouping in `check_parameters`). -/
def paramGroup (pps : List PaperParameter) (n : String) : List PaperParameter :=
  pps.filter fun pp => pp.name == n

/-- The effective lower bound of a parameter name: `np.max` of the lower
bounds of all references to it. -/
def effLo (pps : List PaperParameter) (n : String) : ℚ :=
  listMax ((paramGroup pps n).map (·.lo))

/-- The effective upper bound of a parameter name: `np.min` of the upper
bounds of all references to it. -/
def effHi (pps : List PaperParameter) (n : String) : ℚ :=
  listMin ((paramGroup pps n).map (·.hi))

/-- The per-name body of `check_parameters`' loop: intersect the bounds,
then run the three `assert`s in source order (conflicting bounds, missing
value, out-of-bounds value), recording `Bound(lo, hi)` on success. -/
def checkOne (pps : List PaperParameter) (values : List (String × ℚ))
    (n : String) : Except String (String × Bound) :=
  let lo := effLo pps n
  let hi := effHi pps n
  if ¬ lo < hi then .error ("Conflicting bounds for parameter " ++ n)
  else match values.lookup n with
    | none => .error ("Parameter " ++ n ++ " is missing")
    | some v =>
      if lo ≤ v ∧ v ≤ hi then .ok (n, ⟨lo, hi⟩)
      else .error ("Parameter " ++ n ++ " is out of bounds")

/-- The loop of `check_parameters` over the (deduplicated, grouped)
parameter names: the first failing `assert` aborts the whole call. -/
def checkAll (pps : List PaperParameter) (values : List (String × ℚ)) :
    List String → Except String (List (String × Bound))
  | [] => .ok []
  | n :: ns =>
    match checkOne pps values n with
    | .error m => .error m
    | .ok b =>
      match checkAll pps values ns with
      | .error m => .error m
      | .ok bs => .ok (b :: bs)

/-- `check_parameters` (model.py): group the references by name and run
the per-name checks. -/
def checkParameters (pps : List PaperParameter)
    (values : List (String × ℚ)) : Except String (List (String × Bound)) :=
  checkAll pps values ((pps.map (·.name)).dedup)

lemma listMax_mem_le (l : List ℚ) (hne : l ≠ []) :
    listMax l ∈ l ∧ ∀ a ∈ l, a ≤ listMax l := by
  induction l with
  | nil => exact absurd rfl hne
  | cons x xs ih =>
    cases xs with
    | nil => simp [listMax]
    | cons y ys =>
      obtain ⟨hmem, hle⟩ := ih (by simp)
      constructor
      · rcases max_cases x (listMax (y :: ys)) with ⟨h, _⟩ | ⟨h, _⟩
        · simp [listMax, h]
        · simp only [listMax, h]
          exact List.mem_cons_of_mem _ hmem
      · intro a ha
        rcases List.mem_cons.mp ha with h | h
        · subst h
          exact le_max_left _ _
        · exact (hle a h).trans (le_max_right _ _)

lemma listMin_mem_le (l : List ℚ) (hne : l ≠ []) :
    listMin l ∈ l ∧ ∀ a ∈ l, listMin l ≤ a := by
  induction l with
  | nil => exact absurd rfl hne
  | cons x xs ih =>
    cases xs with
    | nil => simp [listMin]
    | cons y ys =>
      obtain ⟨hmem, hle⟩ := ih (by simp)
      constructor
      · rcases min_cases x (listMin (y :: ys)) with ⟨h, _⟩ | ⟨h, _⟩
        · simp [listMin, h]
        · simp only [listMin, h]
          exact List.mem_cons_of_mem _ hmem
      · intro a ha
        rcases List.mem_cons.mp ha with h | h
        · subst h
          exact min_le_left _ _
        · exact (min_le_right _ _).trans (hle a h)

lemma checkAll_error_of_mem (pps : List PaperParameter)
    (values : List (String × ℚ)) (ns : List String) (n : String)
    (hn : n ∈ ns) (m : String) (he : checkOne pps values n = .error m) :
    ∃ m', checkAll pps values ns = .error m' := by
  induction ns with
  | nil => simp at hn
  | cons x xs ih =>
    rcases List.mem_cons.mp hn with h | h
    · subst h
      exact ⟨m, by simp [checkAll, he]⟩
    · simp only [checkAll]
      cases hx : checkOne pps values x with
      | error m' => exact ⟨m', rfl⟩
      | ok b =>
        obtain ⟨m', hm'⟩ := ih h
        rw [hm']
        exact ⟨m', rfl⟩

lemma checkAll_ok_mem (pps : List PaperParameter)
    (values : List (String × ℚ)) (ns : List String)
    (out : List (String × Bound)) (hok : checkAll pps values ns = .ok out)
    (n : String) (hn : n ∈ ns) :
    ∃ b, checkOne pps values n = .ok b ∧ b ∈ out := by
  induction ns generalizing out with
  | nil => simp at hn
  | cons x xs ih =>
    simp only [checkAll] at hok
    cases hx : checkOne pps values x with
    | error m => rw [hx] at hok; exact absurd hok (by simp)
    | ok b =>
      rw [hx] at hok
      cases hxs : checkAll pps values xs with
      | error m => rw [hxs] at hok; exact absurd hok (by simp)
      | ok bs =>
        rw [hxs] at hok
        have hout : out = b :: bs := by
          cases hok
          rfl
        subst hout
        rcases List.mem_cons.mp hn with h | h
        · subst h
          exact ⟨b, hx, List.mem_cons_self _ _⟩
        · obtain ⟨b', hb', hmem⟩ := ih bs hxs h
          exact ⟨b', hb', List.mem_cons_of_mem _ hmem⟩

/-- The dataclass fields of `Model` (model.py).  The `gp` field (an
operator-graph value) and the `report` callback are external to the
claims' logic and kept as type parameters; `parameter_space` is the
result `check_parameters` recorded by `__post_init__`. -/
structure ModelE (G R : Type) where
  gp : G
  parameters : List (String × ℚ)
  parameterSampleSize : Option ℕ
  locs : List Loc
  vals : List ℚ
  cats : Option (List ℕ)
  report : R
  verbose : Bool
  parameterSpace : List (String × Bound)

/-- `Model.__post_init__` (model.py): at construction, before any numeric
work, run `check_parameters` on the parameter references gathered from
the GP tree (the `gather_vars` traversal lives in the absent op.py and is
abstracted as `gatherVars`); a failing assert aborts construction. -/
def mkModel {G R : Type} (gatherVars : G → List PaperParameter) (gp : G)
    (parameters : List (String × ℚ)) (sz : Option ℕ) (locs : List Loc)
    (vals : List ℚ) (cats : Option (List ℕ)) (report : R) (verbose : Bool) :
    Except String (ModelE G R) :=
  match checkParameters (gatherVars gp) parameters with
  | .error m => .error m
  | .ok ps => .ok ⟨gp, parameters, sz, locs, vals, cats, report, verbose, ps⟩

/-- numpy fancy indexing `l[idxs]`. -/
def applyPerm [Inhabited α] (idxs : List ℕ) (l : List α) : List α :=
  idxs.map fun i => l.getD i default

/-- The `self.data` dictionary that `fit`/`mcmc` assign on the Model
instance — an instance attribute, not a dataclass field. -/
structure TrainData where
  locs : List Loc
  vals : List ℚ
  cats : Option (List ℕ)

/-- The category permutation step shared by `fit` and `mcmc`
(`perm = np.argsort(cats); locs, vals, cats = locs[perm], ...`), with
`np.argsort` abstracted as `argsortFn`. -/
def sortTraining (argsortFn : List ℕ → List ℕ) (locs : List Loc)
    (vals : List ℚ) (cats : Option (List ℕ)) : TrainData :=
  match cats with
  | none => ⟨locs, vals, none⟩
  | some cs =>
    let perm := argsortFn cs
    ⟨applyPerm perm locs, applyPerm perm vals, some (applyPerm perm cs)⟩

/-- `Model.fit` (model.py).  The Adam optimisation loop together with the
underlying/surface reparametrisation (param.py, absent from src) is
abstracted as `optimize`.  The call (1) permutes the training data by
category, (2) assigns `self.data` — the only write to the instance, and
not to a dataclass field — (3) optimises, (4) restores the original
order (for a permutation `perm`, `x[perm][np.argsort(perm)] = x`
exactly, so the restored arrays are the caller's arrays), and (5)
returns `replace(self, parameters=..., locs=..., vals=..., cats=...)`,
a fresh value.  The result is (state of the original object after the
call: its dataclass fields and its `data` attribute, returned new
Model). -/
def fitE {G R : Type} (argsortFn : List ℕ → List ℕ)
    (optimize : List (String × ℚ) → List (String × ℚ))
    (m : ModelE G R) (locs : List Loc) (vals : List ℚ)
    (cats : Option (List ℕ)) :
    (ModelE G R × TrainData) × ModelE G R :=
  let sorted := sortTraining argsortFn locs vals cats
  let newParameters := optimize m.parameters
  ((m, sorted),
   { m with parameters := newParameters, locs := locs, vals := vals,
            cats := cats })

/-- `Model.mcmc` (model.py): asserts that `samples` and `burnin` are
multiples of `report_interval` before any other work, permutes the data,
assigns `self.data`, runs the replica-exchange sampler (the tfp
machinery, abstracted as `sampler`), restores the order, and returns a
new Model carrying the posterior draws and
`parameter_sample_size = samples`. -/
def mcmcE {G R : Type} (argsortFn : List ℕ → List ℕ)
    (sampler : List (String × ℚ) → List (String × ℚ))
    (m : ModelE G R) (locs : List Loc) (vals : List ℚ)
    (cats : Option (List ℕ)) (samples burnin reportInterval : ℕ) :
    Except String ((ModelE G R × TrainData) × ModelE G R) :=
  if samples % reportInterval ≠ 0 then
    .error "samples must be a multiple of report_interval"
  else if burnin % reportInterval ≠ 0 then
    .error "burnin must be a multiple of report_interval"
  else
    let sorted := sortTraining argsortFn locs vals cats
    let posterior := sampler m.parameters
    .ok ((m, sorted),
      { m with parameters := posterior, parameterSampleSize := some samples,
               locs := locs, vals := vals, cats := cats })

/-! ## Query batching (model.py, `interpolate`) -/

/-- `np.arange(0, n, step)`.  `np.arange` raises `ValueError` for step 0,
modelled as `none`. -/
def arangeStep (n step : ℕ) : Option (List ℕ) :=
  if step = 0 then none
  else some ((List.range ((n + step - 1) / step)).map (· * step))

/-- The query batch size of `interpolate`:
`batch_size = self.locs.shape[0] // 2`, a function of the training-set
size only. -/
def batchSize (n1 : ℕ) : ℕ := n1 / 2

/-- `interpolate` (model.py) at the batching level.  The per-batch
conditional-Gaussian solve `interpolate_batch` is abstracted as `f` (it
is embedded in matrix form separately); `interpolate` fills in zero
categories when none are given, cuts the queries into
`locs2[start:start+batch_size]` / `cats2[start:start+batch_size]` slices
for the `np.arange(0, len(locs2), batch_size)` starts, runs `f` on each
slice, and concatenates the per-batch means and variances in order. -/
def interpolateL (f : List Loc → List ℕ → List ℚ × List ℚ)
    (n1 : ℕ) (locs2 : List Loc) (cats2 : Option (List ℕ)) :
    Option (List ℚ × List ℚ) :=
  let cs := match cats2 with
    | none => List.replicate locs2.length 0
    | some cs => cs
  (arangeStep locs2.length (batchSize n1)).map fun starts =>
    let forGp := starts.map fun s =>
      ((locs2.drop s).take (batchSize n1), (cs.drop s).take (batchSize n1))
    let results := forGp.map fun t => f t.1 t.2
    ((results.map Prod.fst).flatten, (results.map Prod.snd).flatten)

lemma ceil_div_pos_eq (bs n : ℕ) (hbs : 0 < bs) (hn0 : n ≠ 0) :
    (n + bs - 1) / bs = (((n - bs) + bs - 1) / bs) + 1 := by
  by_cases hnb : n ≤ bs
  · have e1 : n - bs = 0 := by omega
    rw [e1]
    have e2 : n + bs - 1 = (n - 1) + bs := by omega
    rw [e2, Nat.add_div_right _ hbs]
    have e3 : (n - 1) / bs = 0 := Nat.div_eq_of_lt (by omega)
    have e4 : (0 + bs - 1) / bs = 0 := Nat.div_eq_of_lt (by omega)
    rw [e3, e4]
  · have e1 : n + bs - 1 = (n - 1) + bs := by omega
    have e2 : (n - bs) + bs - 1 = (n - 1 - bs) + bs := by omega
    rw [e1, e2, Nat.add_div_right _ hbs, Nat.add_div_right _ hbs]
    have e3 : n - 1 = (n - 1 - bs) + bs := by omega
    conv_lhs => rw [e3, Nat.add_div_right _ hbs]

lemma flatten_slices (bs : ℕ) (hbs : 0 < bs) (xs : List α) :
    (((List.range ((xs.length + bs - 1) / bs)).map (· * bs)).map
      (fun s => (xs.drop s).take bs)).flatten = xs := by
  generalize hn : xs.length = n
  induction n using Nat.strong_induction_on generalizing xs with
  | _ n ih =>
    by_cases hn0 : n = 0
    · subst hn0
      have hxe : xs = [] := List.length_eq_zero.mp hn
      subst hxe
      have hz : (0 + bs - 1) / bs = 0 := Nat.div_eq_of_lt (by omega)
      simp [hz]
    · rw [ceil_div_pos_eq bs n hbs hn0, List.range_succ_eq_map]
      simp only [List.map_cons, List.flatten_cons, Nat.zero_mul,
        List.drop_zero, List.map_map]
      have hmap : (List.range (((n - bs) + bs - 1) / bs)).map
            ((fun s => (xs.drop s).take bs) ∘ (· * bs) ∘ Nat.succ)
          = (List.range ((((xs.drop bs).length) + bs - 1) / bs)).map
            ((fun s => ((xs.drop bs).drop s).take bs) ∘ (· * bs)) := by
        rw [List.length_drop, hn]
        apply List.map_congr_left
        intro i _
        simp only [Function.comp_apply]
        rw [List.drop_drop, Nat.succ_mul, Nat.add_comm (i * bs) bs]
      rw [hmap, ← List.map_map]
      rw [ih ((xs.drop bs).length) (by rw [List.length_drop]; omega)
        (xs.drop bs) rfl]
      exact List.take_append_drop bs xs

lemma slice_length_of_not_last (bs n i : ℕ) (hbs : 0 < bs) (xs : List α)
    (hn : xs.length = n) (hi : i + 1 < (n + bs - 1) / bs) :
    ((xs.drop (i * bs)).take bs).length = bs := by
  rw [List.length_take, List.length_drop, hn]
  have hle : ¬ ((n + bs - 1) / bs ≤ i + 1) := by omega
  rw [Nat.div_le_iff_le_mul_add_pred hbs] at hle
  push_neg at hle
  have hmul : bs * (i + 1) = bs * i + bs := Nat.mul_succ bs i
  have hcomm : i * bs = bs * i := Nat.mul_comm i bs
  rw [hcomm]
  omega

/-! ## Posterior-draw combination (model.py, `Model.predict`, sampled path) -/

/-- `a[i]` of `predict`'s thinning
(`a = np.arange(samples) * subsample / samples % 1`), as an exact
rational: the fractional part of `i * subsample / samples`. -/
def thinA (samples subsample i : ℕ) : ℚ :=
  Int.fract ((i * subsample : ℚ) / samples)

/-- `pick[i]` of `predict`'s thinning
(`pick = np.concatenate([[True], a[1:] >= a[:-1]])`). -/
def thinPick (samples subsample : ℕ) (i : ℕ) : Bool :=
  if i = 0 then true
  else decide (thinA samples subsample (i - 1) ≤ thinA samples subsample i)

/-- The posterior draws `predict` keeps
(`parameters = tf.nest.map_structure(lambda x: x[pick], self.parameters)`;
the source masks each per-name array identically, which row-wise is a
mask on whole draws). -/
def pickedDraws {P : Type} (draws : List P) (subsample : ℕ) : List P :=
  ((List.range draws.length).filter fun i =>
    thinPick draws.length subsample i).filterMap fun i => draws[i]?

/-- `mm.mean(axis=0)` at one query position. -/
def combineMean (ms : List ℚ) : ℚ := ms.sum / ms.length

/-- `(np.square(mm) + vv).mean(axis=0) - np.square(m)` at one query
position. -/
def combineVar (ms vs : List ℚ) : ℚ :=
  ((ms.zip vs).map fun t => t.1 ^ 2 + t.2).sum / ms.length
    - (combineMean ms) ^ 2

/-- The sampled-parameters path of `Model.predict` (no `reduce`): thin
the draws, predict once per kept draw (the per-draw `interpolate` is
abstracted as `interp`), and combine the per-draw results as a Gaussian
mixture, pointwise over the `nq` query positions. -/
def predictSampled {P : Type} (interp : P → List ℚ × List ℚ)
    (draws : List P) (subsample : Option ℕ) (nq : ℕ) : List ℚ × List ℚ :=
  let picked := pickedDraws draws (subsample.getD draws.length)
  let results := picked.map interp
  ((List.range nq).map fun x => combineMean (results.map fun r => r.1.getD x 0),
   (List.range nq).map fun x =>
     combineVar (results.map fun r => r.1.getD x 0)
       (results.map fun r => r.2.getD x 0))

lemma filterMap_getElem_range {P : Type} (l : List P) :
    (List.range l.length).filterMap (fun i => l[i]?) = l := by
  induction l with
  | nil => simp
  | cons a t ih =>
    rw [List.length_cons, List.range_succ_eq_map, List.filterMap_cons]
    simp only [List.getElem?_cons_zero]
    rw [List.filterMap_map]
    have hcomp : ((fun i => (a :: t)[i]?) ∘ Nat.succ) = fun i => t[i]? := by
      funext i
      simp
    rw [hcomp, ih]

lemma thinPick_all (n : ℕ) (i : ℕ) : thinPick n n i = true := by
  unfold thinPick thinA
  by_cases hi : i = 0
  · simp [hi]
  · rw [if_neg hi]
    rcases eq_or_ne (n : ℚ) 0 with hn | hn
    · simp [hn]
    · have h1 : ((i : ℚ) * n) / n = (i : ℚ) := mul_div_cancel_right₀ _ hn
      have h2 : (((i - 1 : ℕ) : ℚ) * n) / n = ((i - 1 : ℕ) : ℚ) :=
        mul_div_cancel_right₀ _ hn
      rw [h1, h2]
      simp [Int.fract_natCast]

/-- With `subsample = None`, `subsample` defaults to the sample count,
`a` is identically 0, and the thinning keeps every draw. -/
lemma pickedDraws_all {P : Type} (draws : List P) :
    pickedDraws draws draws.length = draws := by
  unfold pickedDraws
  rw [List.filter_eq_self.mpr fun a _ => thinPick_all _ _, filterMap_getElem_range]

/-! ## Conditional-Gaussian prediction (model.py, `interpolate_batch`) -/

/-- A query batch of `interpolate_batch`: `n2` locations with `K`
coordinates, category labels, and the `np.argsort(cats2)` permutation
the source computes.  `np.argsort` is an external numeric primitive and
is modelled by its contract: `sortPerm` is some permutation of the batch
indices, and the theorems hypothesise that it sorts the labels. -/
structure QBatch (K : ℕ) where
  n2 : ℕ
  locs2 : Fin n2 → Fin K → ℚ
  cats2 : Fin n2 → ℕ
  sortPerm : Equiv.Perm (Fin n2)

/-- The covariance-assembly oracle standing for `gp_covariance` /
`gp_covariance2` applied to a fixed parameter set (spec §4.5): `mean`
is the assembled mean vector of a batch and `cov2` the assembled
(cross-)covariance of two batches at an index offset.  The node
evaluation behind it lives in the absent op.py. -/
structure GPOracle (K : ℕ) where
  mean : (n : ℕ) → (Fin n → Fin K → ℚ) → (Fin n → ℕ) → Fin n → ℚ
  cov2 : (n1 n2 : ℕ) → (Fin n1 → Fin K → ℚ) → (Fin n1 → ℕ) →
    (Fin n2 → Fin K → ℚ) → (Fin n2 → ℕ) → ℤ → Matrix (Fin n1) (Fin n2) ℚ

/-- `gp_covariance(gp, locs, cats, p)` (model.py) is `gp_covariance2` of
the batch against itself at offset 0. -/
def covSelf {K : ℕ} (ora : GPOracle K) (n : ℕ) (locs : Fin n → Fin K → ℚ)
    (cats : Fin n → ℕ) : Matrix (Fin n) (Fin n) ℚ :=
  ora.cov2 n n locs cats locs cats 0

/-- `interpolate_batch` (model.py): sort the query batch by category
(`perm = np.argsort(cats2)`), assemble the cross-covariance `A12` with
`offset = N1 = len(locs1)`, assemble `(m2, A22)` for the batch against
itself, restore the original order (`revperm = np.argsort(perm)` is the
inverse permutation, applied with `tf.gather`), and return

`u2_mean = m2 + einsum('ab,a->b', A12, einsum('ab,b->a', A11i, vals1diff))`,
`u2_var = diag_part(A22) - einsum('ab,ab->b', A12, matmul(A11i, A12))`. -/
def interpolateBatch {K N1 : ℕ} (ora : GPOracle K)
    (A11i : Matrix (Fin N1) (Fin N1) ℚ) (locs1 : Fin N1 → Fin K → ℚ)
    (cats1 : Fin N1 → ℕ) (vals1diff : Fin N1 → ℚ) (b : QBatch K) :
    (Fin b.n2 → ℚ) × (Fin b.n2 → ℚ) :=
  let σ := b.sortPerm
  let A12 := ora.cov2 N1 b.n2 locs1 cats1
    (fun j => b.locs2 (σ j)) (fun j => b.cats2 (σ j)) (N1 : ℤ)
  let m2 := ora.mean b.n2 (fun j => b.locs2 (σ j)) (fun j => b.cats2 (σ j))
  let A22 := covSelf ora b.n2 (fun j => b.locs2 (σ j)) (fun j => b.cats2 (σ j))
  let m2r := fun j => m2 (σ.symm j)
  let A12r := fun a j => A12 a (σ.symm j)
  let A22r := fun i j => A22 (σ.symm i) (σ.symm j)
  let w := fun a => ∑ c, A11i a c * vals1diff c
  (fun j => m2r j + ∑ a, A12r a j * w a,
   fun j => A22r j j - ∑ a, A12r a j * (∑ c, A11i a c * A12r c j))

/-- `interpolate` (model.py) after batching, on the category-sorted
training data: assemble `(m1, A11)` once, invert `A11` once
(`tf.linalg.inv` is a runtime primitive, abstracted as `inv`), and run
`interpolate_batch` with that same inverse and `vals1diff = vals1 - m1`
for every query batch in order. -/
def interpolateAll {K N1 : ℕ} (ora : GPOracle K)
    (inv : Matrix (Fin N1) (Fin N1) ℚ → Matrix (Fin N1) (Fin N1) ℚ)
    (locs1 : Fin N1 → Fin K → ℚ) (cats1 : Fin N1 → ℕ) (vals1 : Fin N1 → ℚ)
    (batches : List (QBatch K)) :
    List (Σ n2 : ℕ, (Fin n2 → ℚ) × (Fin n2 → ℚ)) :=
  let m1 := ora.mean N1 locs1 cats1
  let A11 := covSelf ora N1 locs1 cats1
  let A11i := inv A11
  batches.map fun b =>
    ⟨b.n2, interpolateBatch ora A11i locs1 cats1 (fun a => vals1 a - m1 a) b⟩

/-! ## The `Model.predict` dispatcher (model.py) -/

/-- The `reduce` option of `predict`: `'median'` or `'mean'`. -/
inductive ReduceOpt where
  | median
  | mean
  deriving DecidableEq

/-- Everything a `predict` call reads: the per-parameter-set batched
solve (the tf graph built from the model's GP, abstracted as `interp`,
returning `none` where `interpolate`'s batching raises), the model's
single parameter set or posterior draws with `parameter_sample_size`,
the query locations and count, the options, and the two reduce
statistics (np.quantile at 0.5 / mean over draws). -/
structure PredictCall (P : Type) where
  interp : P → List Loc → Option (List ℚ × List ℚ)
  single : P
  draws : List P
  sampleSize : Option ℕ
  locs2 : List Loc
  nq : ℕ
  subsample : Option ℕ
  reduce : Option ReduceOpt
  reduceMedian : List P → P
  reduceMean : List P → P

/-- `Model.predict` (model.py), top level: the three option `assert`s in
source order, then dispatch — single parameter set, `reduce='median'`,
`reduce='mean'`, or the thinned per-draw loop combined as a mixture
(`predictSampled`). -/
def predictE {P : Type} (c : PredictCall P) :
    Except String (List ℚ × List ℚ) :=
  if c.subsample.isSome ∧ c.sampleSize = none then
    .error "subsample is only valid with sampled parameters"
  else if c.reduce.isSome ∧ c.sampleSize = none then
    .error "reduce is only valid with sampled parameters"
  else if c.subsample.isSome ∧ c.reduce.isSome then
    .error "subsample and reduce cannot both be given"
  else
    match c.sampleSize with
    | none =>
      match c.interp c.single c.locs2 with
      | none => .error "batching requires a positive batch size"
      | some r => .ok r
    | some samples =>
      match c.reduce with
      | some .median =>
        match c.interp (c.reduceMedian c.draws) c.locs2 with
        | none => .error "batching requires a positive batch size"
        | some r => .ok r
      | some .mean =>
        match c.interp (c.reduceMean c.draws) c.locs2 with
        | none => .error "batching requires a positive batch size"
        | some r => .ok r
      | none =>
        let sub := c.subsample.getD samples
        if samples < sub then
          .error "subsample may not exceed sample size"
        else
          .ok (predictSampled (fun p => (c.interp p c.locs2).getD ([], []))
            c.draws c.subsample c.nq)

/-! ## Theorems -/

/-- **C5.** `fit` (and likewise `mcmc`) returns a new Model value
carrying the updated parameter dictionary and the training data, and
does not mutate the original Model's fields: after the call every
dataclass field of the pre-fit Model — in particular `parameters` —
holds exactly the value it held before. -/
theorem fit_mcmc_immutable {G R : Type} (argsortFn : List ℕ → List ℕ)
    (optimize sampler : List (String × ℚ) → List (String × ℚ))
    (m : ModelE G R) (locs : List Loc) (vals : List ℚ)
    (cats : Option (List ℕ)) (samples burnin reportInterval : ℕ)
    (h1 : samples % reportInterval = 0) (h2 : burnin % reportInterval = 0) :
    ((fitE argsortFn optimize m locs vals cats).1.1 = m
      ∧ (fitE argsortFn optimize m locs vals cats).2
        = { m with parameters := optimize m.parameters,
                   locs := locs, vals := vals, cats := cats })
    ∧ (mcmcE argsortFn sampler m locs vals cats samples burnin reportInterval
        = .ok ((m, sortTraining argsortFn locs vals cats),
          { m with parameters := sampler m.parameters,
                   parameterSampleSize := some samples,
                   locs := locs, vals := vals, cats := cats })) := by
  refine ⟨⟨rfl, rfl⟩, ?_⟩
  unfold mcmcE
  rw [if_neg (by simp [h1]), if_neg (by simp [h2])]

/-- **C1.** On a Model with a single (non-sampled) parameter set, each
query batch's outputs satisfy the conditional-Gaussian formulas: with
`(m1, A11)` the assembled (category-sorted) training mean and
covariance, `A11⁻¹` computed by the runtime inverse once per predict
call and the same inverse reused by every query batch, `A12` the
training-by-query cross-covariance assembled with
`offset = len(locs1)`, and `(m2, A22)` the query self-covariance, the
returned mean is `m2 + A12ᵀ A11⁻¹ (vals1 - m1)` and the returned
variance is `diag(A22) - rowsum(A12 ⊙ (A11⁻¹ A12))`, in each batch's
original order.  Hypotheses: each batch's `np.argsort` permutation
sorts its labels (the argsort contract), and the assembly is
equivariant under that permutation (true of location/category-pointwise
kernels; the offset diagonal of `Noise` is out of range at
`offset = len(locs1)`). -/
theorem predict_conditional_gaussian {K N1 : ℕ} (ora : GPOracle K)
    (inv : Matrix (Fin N1) (Fin N1) ℚ → Matrix (Fin N1) (Fin N1) ℚ)
    (locs1 : Fin N1 → Fin K → ℚ) (cats1 : Fin N1 → ℕ) (vals1 : Fin N1 → ℚ)
    (batches : List (QBatch K))
    (hsort : ∀ b ∈ batches, Monotone fun j => b.cats2 (b.sortPerm j))
    (hmean : ∀ b ∈ batches,
      ora.mean b.n2 (fun j => b.locs2 (b.sortPerm j))
          (fun j => b.cats2 (b.sortPerm j))
        = fun j => ora.mean b.n2 b.locs2 b.cats2 (b.sortPerm j))
    (hcov2 : ∀ b ∈ batches,
      ora.cov2 N1 b.n2 locs1 cats1 (fun j => b.locs2 (b.sortPerm j))
          (fun j => b.cats2 (b.sortPerm j)) (N1 : ℤ)
        = fun a j =>
            ora.cov2 N1 b.n2 locs1 cats1 b.locs2 b.cats2 (N1 : ℤ) a (b.sortPerm j))
    (hcovS : ∀ b ∈ batches,
      covSelf ora b.n2 (fun j => b.locs2 (b.sortPerm j))
          (fun j => b.cats2 (b.sortPerm j))
        = fun i j =>
            covSelf ora b.n2 b.locs2 b.cats2 (b.sortPerm i) (b.sortPerm j)) :
    ∃ A11i, A11i = inv (covSelf ora N1 locs1 cats1)
      ∧ interpolateAll ora inv locs1 cats1 vals1 batches
        = batches.map fun b =>
          ⟨b.n2,
           (fun j => ora.mean b.n2 b.locs2 b.cats2 j
              + Matrix.mulVec
                  (Matrix.transpose
                    (ora.cov2 N1 b.n2 locs1 cats1 b.locs2 b.cats2 (N1 : ℤ)))
                  (Matrix.mulVec A11i
                    fun a => vals1 a - ora.mean N1 locs1 cats1 a) j,
            fun j => Matrix.diag (covSelf ora b.n2 b.locs2 b.cats2) j
              - ∑ a, ora.cov2 N1 b.n2 locs1 cats1 b.locs2 b.cats2 (N1 : ℤ) a j
                  * (A11i * ora.cov2 N1 b.n2 locs1 cats1 b.locs2 b.cats2 (N1 : ℤ)) a j)⟩ := by
  refine ⟨inv (covSelf ora N1 locs1 cats1), rfl, ?_⟩
  unfold interpolateAll
  apply List.map_congr_left
  intro b hb
  have hm := hmean b hb
  have hc2 := hcov2 b hb
  have hcS := hcovS b hb
  simp only [interpolateBatch]
  refine congrArg (Sigma.mk b.n2) ?_
  have happ : ∀ j, b.sortPerm (b.sortPerm.symm j) = j := fun j =>
    Equiv.apply_symm_apply _ _
  refine Prod.ext ?_ ?_
  · funext j
    rw [hm, hc2]
    simp only [happ]
    simp [Matrix.mulVec, Matrix.dotProduct, Matrix.transpose_apply]
  · funext j
    rw [hc2, hcS]
    simp only [happ]
    simp [Matrix.mul_apply, Matrix.diag]

/-- A concrete constant assembly oracle for the C1 witness: mean 1,
covariance 2 everywhere. -/
def constOracle : GPOracle 1 :=
  ⟨fun _ _ _ _ => 1, fun _ _ _ _ _ _ _ => Matrix.of fun _ _ => 2⟩

/-- The concrete single-point query batch for the C1 witness. -/
def constBatch : QBatch 1 :=
  ⟨1, fun _ _ => 0, fun _ => 0, Equiv.refl _⟩

/-- Witness for C1 at a concrete input: one training point, one
single-point query batch with the identity argsort permutation, a
constant assembly oracle (mean 1, covariance 2) and the identity as the
runtime inverse primitive; the predicted mean evaluates to
`1 + 2*(2*(3-1)) = 9` and the predicted variance to `2 - 2*(2*2) = -6`. -/
theorem predict_conditional_gaussian_witness :
    @interpolateAll 1 1 constOracle (fun A => A)
        (fun _ _ => 0) (fun _ => 0) (fun _ => 3) [constBatch]
      = [⟨1, fun _ => 9, fun _ => -6⟩] := by
  obtain ⟨A11i, hA, hall⟩ := @predict_conditional_gaussian 1 1 constOracle
    (fun A => A) (fun _ _ => 0) (fun _ => 0) (fun _ => 3) [constBatch]
    (by
      intro b hb
      rw [List.mem_singleton] at hb
      subst hb
      intro x y _
      exact le_rfl)
    (by intro b _; rfl)
    (by intro b _; rfl)
    (by intro b _; rfl)
  rw [hall]
  subst hA
  simp only [List.map_cons, List.map_nil]
  refine congrArg (fun t => [t]) (congrArg (Sigma.mk constBatch.n2) ?_)
  refine Prod.ext ?_ ?_
  · funext j
    simp [Matrix.mulVec, Matrix.dotProduct, Matrix.transpose_apply, covSelf,
      constOracle, constBatch, Fin.sum_univ_one, Matrix.of_apply]
    norm_num
  · funext j
    simp [Matrix.mul_apply, Matrix.diag, covSelf, constOracle, constBatch,
      Fin.sum_univ_one, Matrix.of_apply]
    norm_num

/-- **C2.** On a Model holding an array of posterior draws, `predict`
without `reduce` (and without `subsample`) uses every draw: the returned
overall mean is the arithmetic average of the per-draw predicted means,
the returned overall variance is the mean over draws of
`draw_variance + draw_mean^2` minus the square of the overall mean, and
consequently two draws with equal means and equal variances `v` combine
to exactly `v`. -/
theorem predict_mixture {P : Type} (interp : P → List ℚ × List ℚ)
    (draws : List P) (nq : ℕ) :
    (∀ x, x < nq →
      (predictSampled interp draws none nq).1.getD x 0
        = (draws.map fun d => (interp d).1.getD x 0).sum / draws.length
      ∧ (predictSampled interp draws none nq).2.getD x 0
        = (draws.map fun d =>
              ((interp d).1.getD x 0) ^ 2 + (interp d).2.getD x 0).sum
            / draws.length
          - ((draws.map fun d => (interp d).1.getD x 0).sum / draws.length) ^ 2)
    ∧ (∀ m v : ℚ, combineVar [m, m] [v, v] = v) := by
  constructor
  · intro x hx
    unfold predictSampled
    simp only [Option.getD_none]
    rw [pickedDraws_all]
    have hzip : ((draws.map interp).map fun r => r.1.getD x 0).zip
          ((draws.map interp).map fun r => r.2.getD x 0)
        = (draws.map interp).map fun r => (r.1.getD x 0, r.2.getD x 0) :=
      List.zip_map' _ _ _
    constructor
    · rw [getD_range_map _ nq x hx 0]
      unfold combineMean
      rw [List.map_map, List.length_map]
      rfl
    · rw [getD_range_map _ nq x hx 0]
      unfold combineVar combineMean
      rw [hzip]
      rw [List.map_map, List.map_map, List.map_map, List.length_map]
      rfl
  · intro m v
    unfold combineVar combineMean
    simp [List.zip_cons_cons]

/-- Witness for C2 at a concrete input: two draws with per-draw means
`[1]` and variances `[2]`; the combined mean is 1 and the combined
variance is exactly 2 (the common draw variance). -/
theorem predict_mixture_witness :
    (predictSampled (fun _ : ℕ => ([(1 : ℚ)], [(2 : ℚ)])) [0, 1] none 1).1.getD 0 0 = 1
    ∧ (predictSampled (fun _ : ℕ => ([(1 : ℚ)], [(2 : ℚ)])) [0, 1] none 1).2.getD 0 0 = 2
    ∧ combineVar [(3 : ℚ), 3] [(5 : ℚ), 5] = 5 := by
  have h := predict_mixture (fun _ : ℕ => ([(1 : ℚ)], [(2 : ℚ)])) [0, 1] 1
  obtain ⟨hm, hv⟩ := h.1 0 (by norm_num)
  refine ⟨?_, ?_, h.2 3 5⟩
  · rw [hm]
    norm_num
  · rw [hv]
    norm_num

/-- **C10.** `predict`'s `interpolate` partitions the query locations in
order into consecutive batches of `batch_size = N1 // 2` points — a
fixed function of the number of training points only — such that every
batch except possibly the last has exactly `batch_size` points,
concatenating the batches restores the query locations and categories in
their original order, the returned means and variances are the
concatenations of the per-batch results in that same order, and the
batching is well-defined for every model with at least two training
points. -/
theorem predict_batching (f : List Loc → List ℕ → List ℚ × List ℚ)
    (n1 : ℕ) (hn1 : 2 ≤ n1) (locs2 : List Loc) (cats2 : List ℕ)
    (hlen : cats2.length = locs2.length) :
    batchSize n1 = n1 / 2
    ∧ ∃ starts : List ℕ,
      arangeStep locs2.length (batchSize n1) = some starts
      ∧ interpolateL f n1 locs2 (some cats2)
        = some
          ((starts.map fun s => (f ((locs2.drop s).take (batchSize n1))
              ((cats2.drop s).take (batchSize n1))).1).flatten,
           (starts.map fun s => (f ((locs2.drop s).take (batchSize n1))
              ((cats2.drop s).take (batchSize n1))).2).flatten)
      ∧ (starts.map fun s => (locs2.drop s).take (batchSize n1)).flatten = locs2
      ∧ (starts.map fun s => (cats2.drop s).take (batchSize n1)).flatten = cats2
      ∧ ∀ i (hi : i < starts.length), i + 1 < starts.length →
          ((locs2.drop (starts.get ⟨i, hi⟩)).take (batchSize n1)).length
            = batchSize n1 := by
  have hbs : 0 < batchSize n1 := by
    unfold batchSize
    omega
  refine ⟨rfl, (List.range ((locs2.length + batchSize n1 - 1) / batchSize n1)).map
    (· * batchSize n1), ?_, ?_, ?_, ?_, ?_⟩
  · unfold arangeStep
    rw [if_neg (by omega)]
  · unfold interpolateL arangeStep
    rw [if_neg (by omega)]
    simp only [Option.map_some', Option.some.injEq, List.map_map]
    rfl
  · exact flatten_slices (batchSize n1) hbs locs2
  · have h := flatten_slices (batchSize n1) hbs cats2
    rw [hlen] at h
    exact h
  · intro i hi hilast
    have hget : ((List.range ((locs2.length + batchSize n1 - 1) / batchSize n1)).map
          (· * batchSize n1)).get ⟨i, hi⟩ = i * batchSize n1 := by
      simp [List.get_eq_getElem]
    rw [hget]
    refine slice_length_of_not_last (batchSize n1) locs2.length i hbs locs2 rfl ?_
    simpa using hilast

/-- Witness for C10 at a concrete input: a 2-point training set
(batch size 1) splits a 2-point query list into two singleton batches
whose concatenated outputs are returned in order. -/
theorem predict_batching_witness :
    interpolateL (fun ls cs => (ls.map fun l => l.sum, cs.map fun c : ℕ => (c : ℚ)))
        2 [[5], [7]] (some [0, 0])
      = some ([5, 7], [0, 0]) := by
  obtain ⟨hbs2, starts, hs, hint, hloc, hcat, hfull⟩ :=
    predict_batching (fun ls cs => (ls.map fun l => l.sum, cs.map fun c : ℕ => (c : ℚ)))
      2 (by norm_num) [[5], [7]] [0, 0] (by decide)
  rw [hint]
  have hstarts : starts = [0, 1] := by
    have h01 : arangeStep (List.length ([[5], [7]] : List Loc)) (batchSize 2)
        = some [0, 1] := by decide
    rw [hs] at h01
    exact (Option.some.injEq _ _).mp h01.symm ▸ rfl
  subst hstarts
  norm_num [batchSize]

/-- Witness for C5 at a concrete input: fitting a concrete two-point
model updates the returned parameters but leaves the original value's
fields untouched, and mcmc succeeds with valid burst sizes. -/
theorem fit_mcmc_immutable_witness :
    ((@fitE Unit Unit id (fun _ => [("a", 2)])
        ⟨(), [("a", 1)], none, [[0]], [1], none, (), true, []⟩
        [[0], [1]] [1, 2] none).1.1
      = ⟨(), [("a", 1)], none, [[0]], [1], none, (), true, []⟩)
    ∧ (@mcmcE Unit Unit id (fun _ => [("a", 3)])
        ⟨(), [("a", 1)], none, [[0]], [1], none, (), true, []⟩
        [[0], [1]] [1, 2] none 100 50 10
      = .ok ((⟨(), [("a", 1)], none, [[0]], [1], none, (), true, []⟩,
              sortTraining id [[0], [1]] [1, 2] none),
          ⟨(), [("a", 3)], some 100, [[0], [1]], [1, 2], none, (), true, []⟩)) := by
  have h := @fit_mcmc_immutable Unit Unit id
    (fun _ => [("a", 2)]) (fun _ => [("a", 3)])
    ⟨(), [("a", 1)], none, [[0]], [1], none, (), true, []⟩
    [[0], [1]] [1, 2] none 100 50 10 (by decide) (by decide)
  exact ⟨h.1.1, h.2⟩

/-- **C9.** Model construction intersects all references to a parameter
name into the effective bound `[max(lowers), min(uppers)]` and fails
before any numeric work whenever this interval is empty, whenever a
referenced parameter is missing from the supplied dictionary, or
whenever a supplied initial value lies outside the effective bound; on
success every referenced parameter's value lies within its effective
bound (hence within every single reference's bound), and the recorded
bound is the intersection. -/
theorem check_parameters_bounds (pps : List PaperParameter)
    (values : List (String × ℚ)) :
    (∀ pp ∈ pps, effHi pps pp.name < effLo pps pp.name →
      ∃ m, checkParameters pps values = .error m)
    ∧ (∀ pp ∈ pps, values.lookup pp.name = none →
      ∃ m, checkParameters pps values = .error m)
    ∧ (∀ pp ∈ pps, ∀ v, values.lookup pp.name = some v →
      (v < effLo pps pp.name ∨ effHi pps pp.name < v) →
      ∃ m, checkParameters pps values = .error m)
    ∧ (∀ out, checkParameters pps values = .ok out →
      ∀ pp ∈ pps, ∃ v, values.lookup pp.name = some v
        ∧ effLo pps pp.name ≤ v ∧ v ≤ effHi pps pp.name
        ∧ pp.lo ≤ v ∧ v ≤ pp.hi
        ∧ (pp.name, (⟨effLo pps pp.name, effHi pps pp.name⟩ : Bound)) ∈ out)
    ∧ (∀ (G R : Type) (gatherVars : G → List PaperParameter) (gp : G)
        (sz : Option ℕ) (locs : List Loc) (vals : List ℚ)
        (cats : Option (List ℕ)) (report : R) (verbose : Bool) (m : String),
      checkParameters (gatherVars gp) values = .error m →
      mkModel gatherVars gp values sz locs vals cats report verbose
        = .error m) := by
  have hmem : ∀ pp ∈ pps, pp.name ∈ (pps.map (·.name)).dedup := fun pp hpp =>
    List.mem_dedup.mpr (List.mem_map_of_mem _ hpp)
  have hgroup : ∀ pp ∈ pps, pp ∈ paramGroup pps pp.name := by
    intro pp hpp
    simp [paramGroup, List.mem_filter, hpp]
  have hlo_le : ∀ pp ∈ pps, pp.lo ≤ effLo pps pp.name := by
    intro pp hpp
    have hne : (paramGroup pps pp.name).map (·.lo) ≠ [] := by
      intro hemp
      have := hgroup pp hpp
      rcases hx : paramGroup pps pp.name with _ | ⟨y, ys⟩
      · rw [hx] at this
        simp at this
      · rw [hx] at hemp
        simp at hemp
    exact (listMax_mem_le _ hne).2 _ (List.mem_map_of_mem _ (hgroup pp hpp))
  have hhi_le : ∀ pp ∈ pps, effHi pps pp.name ≤ pp.hi := by
    intro pp hpp
    have hne : (paramGroup pps pp.name).map (·.hi) ≠ [] := by
      intro hemp
      have := hgroup pp hpp
      rcases hx : paramGroup pps pp.name with _ | ⟨y, ys⟩
      · rw [hx] at this
        simp at this
      · rw [hx] at hemp
        simp at hemp
    exact (listMin_mem_le _ hne).2 _ (List.mem_map_of_mem _ (hgroup pp hpp))
  refine ⟨?_, ?_, ?_, ?_, ?_⟩
  · intro pp hpp hempty
    have hco : checkOne pps values pp.name
        = .error ("Conflicting bounds for parameter " ++ pp.name) := by
      unfold checkOne
      rw [if_pos (by simp only [not_lt]; exact hempty.le.trans (le_refl _))]
    exact checkAll_error_of_mem pps values _ pp.name (hmem pp hpp) _ hco
  · intro pp hpp hnone
    by_cases hlh : effLo pps pp.name < effHi pps pp.name
    · have hco : checkOne pps values pp.name
          = .error ("Parameter " ++ pp.name ++ " is missing") := by
        unfold checkOne
        rw [if_neg (by simpa using hlh), hnone]
      exact checkAll_error_of_mem pps values _ pp.name (hmem pp hpp) _ hco
    · have hco : checkOne pps values pp.name
          = .error ("Conflicting bounds for parameter " ++ pp.name) := by
        unfold checkOne
        rw [if_pos (by simpa using hlh)]
      exact checkAll_error_of_mem pps values _ pp.name (hmem pp hpp) _ hco
  · intro pp hpp v hv hout
    by_cases hlh : effLo pps pp.name < effHi pps pp.name
    · have hco : checkOne pps values pp.name
          = .error ("Parameter " ++ pp.name ++ " is out of bounds") := by
        unfold checkOne
        rw [if_neg (by simpa using hlh)]
        simp only [hv]
        rw [if_neg (by rintro ⟨h1', h2'⟩; rcases hout with h | h <;> linarith)]
      exact checkAll_error_of_mem pps values _ pp.name (hmem pp hpp) _ hco
    · have hco : checkOne pps values pp.name
          = .error ("Conflicting bounds for parameter " ++ pp.name) := by
        unfold checkOne
        rw [if_pos (by simpa using hlh)]
      exact checkAll_error_of_mem pps values _ pp.name (hmem pp hpp) _ hco
  · intro out hok pp hpp
    obtain ⟨b, hb, hbmem⟩ :=
      checkAll_ok_mem pps values _ out hok pp.name (hmem pp hpp)
    unfold checkOne at hb
    by_cases hlh : effLo pps pp.name < effHi pps pp.name
    · rw [if_neg (by simpa using hlh)] at hb
      split at hb
      · exact absurd hb (by simp)
      · rename_i v hv
        split at hb
        · rename_i hin
          have hbval : b = (pp.name, (⟨effLo pps pp.name, effHi pps pp.name⟩ : Bound)) := by
            cases hb
            rfl
          subst hbval
          exact ⟨v, hv, hin.1, hin.2,
            (hlo_le pp hpp).trans hin.1, hin.2.trans (hhi_le pp hpp), hbmem⟩
        · exact absurd hb (by simp)
    · rw [if_pos (by simpa using hlh)] at hb
      exact absurd hb (by simp)
  · intro G R gatherVars gp sz locs vals cats report verbose m hm
    unfold mkModel
    rw [hm]

/-- Witness for C9 at a concrete input: a single reference `a ∈ [0, 10]`
with supplied value 11 is rejected, and with value 5 construction
succeeds with the value inside the recorded bound. -/
theorem check_parameters_bounds_witness :
    (∃ m, checkParameters [⟨"a", 0, 10⟩] [("a", 11)] = .error m)
    ∧ (∀ out, checkParameters [⟨"a", 0, 10⟩] [("a", 5)] = .ok out →
      ∃ v, [("a", (5 : ℚ))].lookup "a" = some v
        ∧ effLo [⟨"a", 0, 10⟩] "a" ≤ v ∧ v ≤ effHi [⟨"a", 0, 10⟩] "a"
        ∧ (0 : ℚ) ≤ v ∧ v ≤ 10
        ∧ ("a", (⟨effLo [⟨"a", 0, 10⟩] "a", effHi [⟨"a", 0, 10⟩] "a"⟩ : Bound)) ∈ out) := by
  constructor
  · exact (check_parameters_bounds [⟨"a", 0, 10⟩] [("a", 11)]).2.2.1
      ⟨"a", 0, 10⟩ (by simp) 11 (by simp [List.lookup])
      (by right; simp [effHi, paramGroup, listMin]; norm_num)
  · intro out hok
    have h := (check_parameters_bounds [⟨"a", 0, 10⟩] [("a", 5)]).2.2.2.1
      out hok ⟨"a", 0, 10⟩ (by simp)
    simpa using h

/-- **C6.** `Mux.call` assembles a covariance matrix that is
block-diagonal by category: when both batches' category labels are sorted
non-descending (and label a sub-kernel), every entry whose row and column
belong to different categories is exactly zero, and the diagonal block of
category `c` equals the sub-kernel of category `c` evaluated on that
category's location segments with its own local cache (fresh distance
intermediates, no category entries) and the within-block offset
`offset + (start2(c) - start1(c))`. -/
theorem mux_block_diagonal (pr : Prims) (p : String → ℚ) (parts : List Kern) (e : Env)
    (hs1 : e.cats1.Sorted (· ≤ ·)) (hs2 : e.cats2.Sorted (· ≤ ·))
    (hlt1 : ∀ x ∈ e.cats1, x < parts.length)
    (hlt2 : ∀ x ∈ e.cats2, x < parts.length) :
    (∀ (i j : ℕ) (hi : i < e.cats1.length) (hj : j < e.cats2.length),
      e.cats1.get ⟨i, hi⟩ ≠ e.cats2.get ⟨j, hj⟩ →
      evalK pr p (.mux parts) e i j = 0)
    ∧ (∀ (c : ℕ) (hc : c < parts.length) (a b : ℕ),
      a < e.cats1.count c → b < e.cats2.count c →
      evalK pr p (.mux parts) e
          (e.cats1.countP (fun x => decide (x < c)) + a)
          (e.cats2.countP (fun x => decide (x < c)) + b)
        = evalK pr p (parts.get ⟨c, hc⟩) (muxSubEnv e c) a b) := by
  constructor
  · intro i j hi hj hne
    have hc1 : e.cats1.get ⟨i, hi⟩ < parts.length := hlt1 _ (e.cats1.get_mem i hi)
    have hc2 : e.cats2.get ⟨j, hj⟩ < parts.length := hlt2 _ (e.cats2.get_mem j hj)
    have hb1 := (sorted_get_iff e.cats1 hs1 (e.cats1.get ⟨i, hi⟩) i hi).mp rfl
    have hb2 := (sorted_get_iff e.cats2 hs2 (e.cats2.get ⟨j, hj⟩) j hj).mp rfl
    set c1 := e.cats1.get ⟨i, hi⟩ with hc1def
    set c2 := e.cats2.get ⟨j, hj⟩ with hc2def
    obtain ⟨a, hia, haa⟩ : ∃ a, i = e.cats1.countP (fun x => decide (x < c1)) + a
        ∧ a < e.cats1.count c1 :=
      ⟨i - e.cats1.countP (fun x => decide (x < c1)), by omega, by omega⟩
    obtain ⟨b, hjb, hbb⟩ : ∃ b, j = e.cats2.countP (fun x => decide (x < c2)) + b
        ∧ b < e.cats2.count c2 :=
      ⟨j - e.cats2.countP (fun x => decide (x < c2)), by omega, by omega⟩
    rw [evalK_mux, hia, hjb,
      ← muxBlocks_rowStart pr p parts e c1 hc1.le,
      ← muxBlocks_colStart pr p parts e c2 hc2.le]
    exact blockDiag_offblock _ c1 c2
      (by rw [muxBlocks_length]; exact hc1)
      (by rw [muxBlocks_length]; exact hc2)
      hne a b
      (by rw [muxBlocks_get pr p parts e c1 hc1]; exact haa)
      (by rw [muxBlocks_get pr p parts e c2 hc2]; exact hbb)
  · intro c hc a b ha hb
    rw [evalK_mux]
    have hcb : c < (muxBlocks pr p parts e).length := by
      rw [muxBlocks_length]; exact hc
    have hget := muxBlocks_get pr p parts e c hc hcb
    have h := blockDiag_apply_block (muxBlocks pr p parts e) c hcb a b
      (by rw [hget]; exact ha) (by rw [hget]; exact hb)
    rw [muxBlocks_rowStart pr p parts e c hc.le,
      muxBlocks_colStart pr p parts e c hc.le, hget] at h
    exact h

/-- Witness for C6 at a concrete input: a two-category `Mux` of two
`Noise` kernels over two sorted 1-point-per-category batches has zero
cross-category entries, and its category-0 block is the first noise
kernel on the category-0 segment. -/
theorem mux_block_diagonal_witness :
    (evalK ⟨id, fun x _ => x, id⟩ (fun _ => (7 : ℚ))
        (.mux [.noise "a", .noise "b"])
        ⟨0, [[0], [1]], [[2], [3]], [0, 1], [0, 1]⟩ 0 1 = 0)
    ∧ (evalK ⟨id, fun x _ => x, id⟩ (fun _ => (7 : ℚ))
        (.mux [.noise "a", .noise "b"])
        ⟨0, [[0], [1]], [[2], [3]], [0, 1], [0, 1]⟩ 0 0
      = evalK ⟨id, fun x _ => x, id⟩ (fun _ => (7 : ℚ)) (.noise "a")
          (muxSubEnv ⟨0, [[0], [1]], [[2], [3]], [0, 1], [0, 1]⟩ 0) 0 0) := by
  have h := mux_block_diagonal ⟨id, fun x _ => x, id⟩ (fun _ => (7 : ℚ))
    [.noise "a", .noise "b"] ⟨0, [[0], [1]], [[2], [3]], [0, 1], [0, 1]⟩
    (by simp) (by simp) (by decide) (by decide)
  constructor
  · exact h.1 0 1 (by decide) (by decide) (by decide)
  · have h2 := h.2 0 (by decide) 0 0 (by decide) (by decide)
    simpa using h2

/-- **C7.** `Noise.call` produces the nugget exactly on the offset
diagonal: the entry at row `i`, column `j` is the nugget value exactly
when `i = j + offset` and zero otherwise; with offset 0 it is the nugget
times the identity, and with the cross-covariance convention
`offset = n1` every in-range entry is zero. -/
theorem noise_offset_diagonal (pr : Prims) (p : String → ℚ) (ng : String) (e : Env)
    (i j : ℕ) (hi : i < e.locs1.length) (hj : j < e.locs2.length) :
    (evalK pr p (.noise ng) e i j = if (i : ℤ) = (j : ℤ) + e.offset then p ng else 0)
    ∧ (e.offset = 0 → evalK pr p (.noise ng) e i j = if i = j then p ng else 0)
    ∧ (e.offset = (e.locs1.length : ℤ) → evalK pr p (.noise ng) e i j = 0) := by
  have hdef : evalK pr p (.noise ng) e i j
      = if (i : ℤ) = (j : ℤ) + e.offset then p ng else 0 := by
    simp only [evalK]
  refine ⟨hdef, ?_, ?_⟩
  · intro h0
    rw [hdef, h0, add_zero]
    norm_cast
  · intro hoff
    rw [hdef, if_neg]
    rw [hoff]
    have : (i : ℤ) < (e.locs1.length : ℤ) := by exact_mod_cast hi
    omega

/-- Witness for C7 at a concrete input: a 1×1 noise block with offset 0
evaluates to the nugget value. -/
theorem noise_offset_diagonal_witness :
    evalK ⟨id, fun x _ => x, id⟩ (fun _ => (3 : ℚ)) (.noise "nugget")
      ⟨0, [[0]], [[0]], [], []⟩ 0 0 = 3 := by
  have h := noise_offset_diagonal ⟨id, fun x _ => x, id⟩ (fun _ => (3 : ℚ)) "nugget"
    ⟨0, [[0]], [[0]], [], []⟩ 0 0 (by decide) (by decide)
  simpa using h.2.1 rfl

/-- **C3.** `predict` is deterministic: two `predict` calls that agree
on the parameter values (single set and posterior draws), the training
data behind the solve, the query locations and categories (all folded
into `interp`, `single`, `draws`), the sample size and the options,
return exactly equal mean and variance arrays.  The embedded `predict`
reads nothing else — in particular no random state — so the outputs are
a function of exactly these inputs. -/
theorem predict_deterministic {P : Type} (c1 c2 : PredictCall P)
    (hinterp : c1.interp = c2.interp) (hsingle : c1.single = c2.single)
    (hdraws : c1.draws = c2.draws) (hss : c1.sampleSize = c2.sampleSize)
    (hlocs : c1.locs2 = c2.locs2) (hnq : c1.nq = c2.nq)
    (hsub : c1.subsample = c2.subsample) (hred : c1.reduce = c2.reduce)
    (hmed : c1.reduceMedian = c2.reduceMedian)
    (hmean : c1.reduceMean = c2.reduceMean) :
    predictE c1 = predictE c2 := by
  cases c1
  cases c2
  simp only at hinterp hsingle hdraws hss hlocs hnq hsub hred hmed hmean
  subst hinterp hsingle hdraws hss hlocs hnq hsub hred hmed hmean
  rfl

/-- Witness for C3 at a concrete input: two literal `predict` calls with
identical inputs (a single parameter set mapping every query to mean 0,
variance 1) produce the same output. -/
theorem predict_deterministic_witness :
    predictE ⟨fun _ ls => some (ls.map fun _ => 0, ls.map fun _ => 1),
        [("a", (1 : ℚ))], [], none, [[0]], 1, none, none, fun _ => [], fun _ => []⟩
      = predictE ⟨fun _ ls => some (ls.map fun _ => 0, ls.map fun _ => 1),
        [("a", (1 : ℚ))], [], none, [[0]], 1, none, none, fun _ => [], fun _ => []⟩ := by
  exact predict_deterministic _ _ rfl rfl rfl rfl rfl rfl rfl rfl rfl rfl

/-- **C4.** `Product.call` reduces the evaluated sub-kernels by
elementwise summation (`tf.reduce_sum(e['parts'], axis=0)`), and its
result is exactly `Stack.call`'s result on the same sub-kernels, for
every sub-kernel list, parameter assignment and evaluation cache. -/
theorem product_is_sum_and_eq_stack (pr : Prims) (p : String → ℚ)
    (parts : List Kern) (e : Env) :
    (∀ i j, evalK pr p (.product parts) e i j
        = ∑ c : Fin parts.length, evalK pr p (parts.get c) e i j)
    ∧ evalK pr p (.product parts) e = evalK pr p (.stack parts) e := by
  constructor
  · intro i j
    rw [Fin.sum_univ_def]
    simp only [evalK]
  · simp only [evalK]

/-- **C8.** `GammaExponential.call` evaluates to
`sill * exp(-(max(d2,0)/range^2)^(gamma/2))` — clipping the squared
distance to at least 0 before the non-integer power — and the custom
gradient of `safepow` is exactly zero for both the base and the exponent
derivative wherever the base is ≤ 0, each gradient being unbroadcast
(summed over the broadcast-introduced axes) back to its argument's
original shape (elementwise for the rank-2 base; a full sum for the
rank-0 exponent). -/
theorem gammaexp_clip_and_safepow_grad (pr : Prims) (p : String → ℚ)
    (sill rng gam : String) (e : Env) (m n : ℕ) (x : ℕ → ℕ → ℚ) (a : ℚ)
    (dy : ℕ → ℕ → ℚ) :
    (∀ i j, evalK pr p (.gammaexp sill rng gam) e i j
        = p sill * pr.fexp (-(pr.fpow
            (max (eucl (locAt e.locs1 i) (locAt e.locs2 j)) 0 / (p rng) ^ 2)
            ((1/2) * p gam))))
    ∧ (∀ i j, x i j ≤ 0 →
        safepowGradX pr (x i j) a (dy i j) = 0
        ∧ safepowGradA pr (x i j) a (dy i j) = 0)
    ∧ (∀ i, i < m → ∀ j, j < n →
        (safepowGrad pr m n x a dy).1 i j = safepowGradX pr (x i j) a (dy i j))
    ∧ (safepowGrad pr m n x a dy).2
        = ∑ i ∈ Finset.range m, ∑ j ∈ Finset.range n,
            safepowGradA pr (x i j) a (dy i j) := by
  refine ⟨?_, ?_, ?_, rfl⟩
  · intro i j
    have hclip : max (eucl (locAt e.locs1 i) (locAt e.locs2 j)) 0 / (p rng) ^ 2
        = max (eucl (locAt e.locs1 i) (locAt e.locs2 j) / (p rng) ^ 2) 0 := by
      rcases eq_or_ne (p rng) 0 with h0 | h0
      · simp [h0]
      · have hpos : (0 : ℚ) < (p rng) ^ 2 := pow_pos (abs_pos.mpr h0) 2 |>.trans_eq (by rw [sq_abs])
        have hmax := max_div_div_right hpos.le
          (eucl (locAt e.locs1 i) (locAt e.locs2 j)) 0
        rw [zero_div] at hmax
        exact hmax.symm
    rw [hclip]
    simp only [evalK]
  · intro i j hle
    constructor
    · simp [safepowGradX, hle]
    · simp [safepowGradA, hle]
  · intro i hi j hj
    simp only [safepowGrad, unbroadcastMat]
    by_cases hn : n = 1
    · by_cases hm : m = 1
      · subst hn; subst hm
        have hi0 : i = 0 := by omega
        have hj0 : j = 0 := by omega
        subst hi0; subst hj0
        simp
      · subst hn
        have hj0 : j = 0 := by omega
        subst hj0
        simp [hm]
    · by_cases hm : m = 1
      · subst hm
        have hi0 : i = 0 := by omega
        subst hi0
        simp [hn]
      · simp [hm, hn]

/-- Witness for C8 at a concrete input: a gamma-exponential kernel on a
pair of 1-point batches at squared distance 1, and a 1×1 gradient with a
nonpositive base, where both derivative components are zero. -/
theorem gammaexp_clip_and_safepow_grad_witness :
    (evalK ⟨fun q => q + 1, fun x a => x * a, id⟩ (fun _ => (2 : ℚ))
        (.gammaexp "sill" "range" "gamma") ⟨0, [[1]], [[2]], [], []⟩ 0 0
      = 2 * ((-(max ((1 : ℚ)/4) 0 * 1)) + 1))
    ∧ safepowGradX ⟨fun q => q + 1, fun x a => x * a, id⟩ (-1) 1 1 = 0
    ∧ safepowGradA ⟨fun q => q + 1, fun x a => x * a, id⟩ (-1) 1 1 = 0 := by
  have h := gammaexp_clip_and_safepow_grad ⟨fun q => q + 1, fun x a => x * a, id⟩
    (fun _ => (2 : ℚ)) "sill" "range" "gamma" ⟨0, [[1]], [[2]], [], []⟩
    1 1 (fun _ _ => (-1 : ℚ)) 1 (fun _ _ => (1 : ℚ))
  have h2 := h.2.1 0 0 (by norm_num)
  refine ⟨?_, h2.1, h2.2⟩
  have h1 := h.1 0 0
  rw [h1]
  norm_num [eucl, paDist2, locAt]

end Geostat
